import Mathlib

/-!
Shallow embedding of the basicGA genetic-algorithm engine
(`src/GA.py` and `src/GA/GAProcess.py`).

Modelling conventions:
* numpy float arrays are `List ℚ` (exact arithmetic);
* every pseudorandom quantity a Python call draws (uniform seeds, coin
  flips, boolean masks, permutations, index picks) is an explicit
  argument of the corresponding Lean function;
* a Python `assert` failure or `IndexError` is `none` of an `Option`
  result (the call raises instead of returning).
-/

/-- Elementwise combination of three equal-length vectors (numpy
broadcasting over arrays of one common shape). -/
def zip3With (f : ℚ → ℚ → ℚ → ℚ) : List ℚ → List ℚ → List ℚ → List ℚ
  | a :: as, b :: bs, c :: cs => f a b c :: zip3With f as bs cs
  | _, _, _ => []

theorem zip3With_length (f : ℚ → ℚ → ℚ → ℚ) :
    ∀ (as bs cs : List ℚ),
      (zip3With f as bs cs).length = min as.length (min bs.length cs.length)
  | [], [], [] => by simp [zip3With]
  | [], [], _ :: _ => by simp [zip3With]
  | [], _ :: _, _ => by simp [zip3With]
  | _ :: _, [], _ => by simp [zip3With]
  | _ :: _, _ :: _, [] => by simp [zip3With]
  | a :: as, b :: bs, c :: cs => by
    simp [zip3With, zip3With_length f as bs cs]
    omega

theorem zip3With_getD (f : ℚ → ℚ → ℚ → ℚ) :
    ∀ (as bs cs : List ℚ) (i : ℕ),
      i < as.length → i < bs.length → i < cs.length →
      (zip3With f as bs cs).getD i 0 = f (as.getD i 0) (bs.getD i 0) (cs.getD i 0)
  | a :: as, b :: bs, c :: cs, 0, _, _, _ => by simp [zip3With]
  | a :: as, b :: bs, c :: cs, i + 1, ha, hb, hc => by
    simpa [zip3With] using
      zip3With_getD f as bs cs i (by simpa using ha) (by simpa using hb) (by simpa using hc)

theorem getD_mem_of_lt {l : List ℚ} {i : ℕ} (h : i < l.length) : l.getD i 0 ∈ l := by
  rw [List.getD_eq_getElem?_getD, List.getElem?_eq_getElem h]
  exact List.getElem_mem h

/-- `class Individual` of `src/GA.py`: dimension, per-gene bounds and the
chromosome vector. -/
structure Individual where
  dim : ℕ
  lbound : List ℚ
  ubound : List ℚ
  chrom : List ℚ
deriving DecidableEq

instance : Inhabited Individual := ⟨⟨0, [], [], []⟩⟩

/-- `Individual.__init__`: stores the bounds and leaves
`self._chrom = np.empty((dim,))`, an uninitialized placeholder that is
modelled as a zero vector of length `dim`. -/
def Individual.create (dim : ℕ) (lbound ubound : List ℚ) : Individual :=
  ⟨dim, lbound, ubound, List.replicate dim 0⟩

/-- The `initialize` method of `Individual` (renamed here):
`self._chrom = self.lbound + (self.ubound - self.lbound) * seeds` with
`seeds = np.random.random(self._dim)` passed explicitly. -/
def Individual.initRandom (ind : Individual) (seeds : List ℚ) : Individual :=
  { ind with chrom := zip3With (fun l u s => l + (u - l) * s) ind.lbound ind.ubound seeds }

/-- The `chrom` property setter: asserts that the dimension matches and
that every component lies within `[lbound, ubound]` before storing the
vector unchanged; a failed assertion raises (`none`). -/
def Individual.setChrom (ind : Individual) (c : List ℚ) : Option Individual :=
  if ind.dim = c.length ∧
      (∀ p ∈ c.zip ind.lbound, p.2 ≤ p.1) ∧
      (∀ p ∈ c.zip ind.ubound, p.1 ≤ p.2) then
    some { ind with chrom := c }
  else none

/-- One iteration of `Individual.mutate`'s loop: when the coin is `true`
(`np.random.rand() < 0.5`) the gene creeps toward the lower bound,
otherwise toward the upper bound. -/
def mutateStep (lbound ubound : List ℚ) (alpha : ℚ) (chrom : List ℚ) (pc : ℕ × Bool) :
    List ℚ :=
  if pc.2 then
    chrom.set pc.1 (chrom.getD pc.1 0 - (chrom.getD pc.1 0 - lbound.getD pc.1 0) * alpha)
  else
    chrom.set pc.1 (chrom.getD pc.1 0 + (ubound.getD pc.1 0 - chrom.getD pc.1 0) * alpha)

/-- `Individual.mutate(positions, alpha)`: sequentially updates the genes
at `positions`, one independent direction coin per position. -/
def Individual.mutate (ind : Individual) (positions : List ℕ) (coins : List Bool)
    (alpha : ℚ) : Individual :=
  { ind with
    chrom := (positions.zip coins).foldl (mutateStep ind.lbound ind.ubound alpha) ind.chrom }

/-- The bounds invariant `lowerBound[i] <= chromosome[i] <= upperBound[i]`. -/
def Individual.inBounds (ind : Individual) : Prop :=
  ∀ i < ind.chrom.length,
    ind.lbound.getD i 0 ≤ ind.chrom.getD i 0 ∧ ind.chrom.getD i 0 ≤ ind.ubound.getD i 0

theorem getD_set_self {l : List ℚ} {p : ℕ} {v : ℚ} (h : p < l.length) :
    (l.set p v).getD p 0 = v := by
  rw [List.getD_eq_getElem?_getD, List.getElem?_set]
  simp [h]

theorem getD_set_ne {l : List ℚ} {p i : ℕ} {v : ℚ} (h : p ≠ i) :
    (l.set p v).getD i 0 = l.getD i 0 := by
  rw [List.getD_eq_getElem?_getD, List.getElem?_set, if_neg h, ← List.getD_eq_getElem?_getD]

theorem mutateStep_preserves {lb ub c : List ℚ} {alpha : ℚ} (pc : ℕ × Bool)
    (h0 : 0 ≤ alpha) (h1 : alpha ≤ 1)
    (h : ∀ i < c.length, lb.getD i 0 ≤ c.getD i 0 ∧ c.getD i 0 ≤ ub.getD i 0) :
    (mutateStep lb ub alpha c pc).length = c.length ∧
      ∀ i < c.length,
        lb.getD i 0 ≤ (mutateStep lb ub alpha c pc).getD i 0 ∧
          (mutateStep lb ub alpha c pc).getD i 0 ≤ ub.getD i 0 := by
  obtain ⟨p, coin⟩ := pc
  have hlen : (mutateStep lb ub alpha c (p, coin)).length = c.length := by
    cases coin <;> simp [mutateStep]
  refine ⟨hlen, fun i hi => ?_⟩
  by_cases hpi : p = i
  · subst hpi
    obtain ⟨hl, hu⟩ := h p hi
    cases coin with
    | false =>
      simp only [mutateStep]
      rw [if_neg (by simp), getD_set_self hi]
      constructor <;> nlinarith
    | true =>
      simp only [mutateStep]
      rw [if_pos trivial, getD_set_self hi]
      constructor <;> nlinarith
  · have : (mutateStep lb ub alpha c (p, coin)).getD i 0 = c.getD i 0 := by
      cases coin with
      | false =>
        simp only [mutateStep]
        rw [if_neg (by simp)]
        exact getD_set_ne hpi
      | true =>
        simp only [mutateStep]
        rw [if_pos trivial]
        exact getD_set_ne hpi
    rw [this]
    exact h i hi

theorem mutate_foldl_preserves {lb ub : List ℚ} {alpha : ℚ}
    (h0 : 0 ≤ alpha) (h1 : alpha ≤ 1) :
    ∀ (pcs : List (ℕ × Bool)) (c : List ℚ),
      (∀ i < c.length, lb.getD i 0 ≤ c.getD i 0 ∧ c.getD i 0 ≤ ub.getD i 0) →
      (pcs.foldl (mutateStep lb ub alpha) c).length = c.length ∧
        ∀ i < c.length,
          lb.getD i 0 ≤ (pcs.foldl (mutateStep lb ub alpha) c).getD i 0 ∧
            (pcs.foldl (mutateStep lb ub alpha) c).getD i 0 ≤ ub.getD i 0
  | [], c, h => ⟨rfl, h⟩
  | pc :: pcs, c, h => by
    obtain ⟨hlen, hbnd⟩ := mutateStep_preserves pc h0 h1 h
    obtain ⟨hlen2, hbnd2⟩ :=
      mutate_foldl_preserves h0 h1 pcs (mutateStep lb ub alpha c pc)
        (by rw [hlen]; exact hbnd)
    rw [List.foldl_cons]
    exact ⟨hlen2.trans hlen, fun i hi => hbnd2 i (by omega)⟩

/-- `np.sum(np.abs(V))`. -/
def sumAbs (V : List ℚ) : ℚ := (V.map (fun v => |v|)).sum

/-- The `fitness` property of `Population` as a function of the
evaluation vector `V`: `fitness = np.sum(np.abs(V)) - V`, then divided
by its own sum. -/
def fitnessFromEval (V : List ℚ) : List ℚ :=
  (V.map (fun v => sumAbs V - v)).map
    (fun x => x / (V.map (fun v => sumAbs V - v)).sum)

theorem sumAbs_nonneg (V : List ℚ) : 0 ≤ sumAbs V := by
  refine List.sum_nonneg ?_
  intro x hx
  obtain ⟨v, _, rfl⟩ := List.mem_map.mp hx
  exact abs_nonneg v

theorem sum_le_sumAbs : ∀ V : List ℚ, V.sum ≤ sumAbs V
  | [] => le_refl 0
  | v :: V => by
    simp only [sumAbs, List.map_cons, List.sum_cons]
    exact add_le_add (le_abs_self v) (sum_le_sumAbs V)

theorem abs_le_sumAbs_of_mem : ∀ (V : List ℚ) (v : ℚ), v ∈ V → |v| ≤ sumAbs V
  | w :: V, v, hv => by
    simp only [sumAbs, List.map_cons, List.sum_cons]
    rcases List.mem_cons.mp hv with h | h
    · subst h
      have : (0 : ℚ) ≤ (V.map (fun x => |x|)).sum := sumAbs_nonneg V
      linarith
    · have : |v| ≤ sumAbs V := abs_le_sumAbs_of_mem V v h
      have : (0 : ℚ) ≤ |w| := abs_nonneg w
      simp only [sumAbs] at *
      linarith [abs_le_sumAbs_of_mem V v h]

theorem sumAbs_pos {V : List ℚ} {v : ℚ} (hv : v ∈ V) (hne : v ≠ 0) : 0 < sumAbs V :=
  lt_of_lt_of_le (abs_pos.mpr hne) (abs_le_sumAbs_of_mem V v hv)

theorem sum_map_const_sub (c : ℚ) :
    ∀ V : List ℚ, (V.map (fun v => c - v)).sum = V.length * c - V.sum
  | [] => by simp
  | v :: V => by
    simp only [List.map_cons, List.sum_cons, sum_map_const_sub c V, List.length_cons]
    push_cast
    ring

theorem sum_map_div (d : ℚ) : ∀ l : List ℚ, (l.map (fun x => x / d)).sum = l.sum / d
  | [] => by simp
  | x :: l => by
    simp only [List.map_cons, List.sum_cons, sum_map_div d l]
    rw [add_div]

/-- The normalizer `np.sum(fitness)` before division is nonnegative. -/
theorem rawFitnessSum_nonneg (V : List ℚ) :
    0 ≤ (V.map (fun v => sumAbs V - v)).sum := by
  rcases V with _ | ⟨v, W⟩
  · simp
  · rw [sum_map_const_sub]
    have h1 : (v :: W).sum ≤ sumAbs (v :: W) := sum_le_sumAbs _
    have h2 : (0 : ℚ) ≤ sumAbs (v :: W) := sumAbs_nonneg _
    have h3 : (1 : ℚ) ≤ ((v :: W).length : ℚ) := by
      simp only [List.length_cons]
      push_cast
      linarith [Nat.cast_nonneg (α := ℚ) W.length]
    nlinarith

theorem rawFitnessSum_pos {V : List ℚ} (hlen : 2 ≤ V.length) {v : ℚ}
    (hv : v ∈ V) (hne : v ≠ 0) :
    0 < (V.map (fun v => sumAbs V - v)).sum := by
  rw [sum_map_const_sub]
  have h1 : V.sum ≤ sumAbs V := sum_le_sumAbs V
  have h2 : 0 < sumAbs V := sumAbs_pos hv hne
  have h3 : (2 : ℚ) ≤ (V.length : ℚ) := by exact_mod_cast hlen
  nlinarith

theorem fitnessFromEval_length (V : List ℚ) : (fitnessFromEval V).length = V.length := by
  simp [fitnessFromEval]

theorem fitnessFromEval_sum {V : List ℚ} (hlen : 2 ≤ V.length)
    (hnz : ∃ v ∈ V, v ≠ 0) : (fitnessFromEval V).sum = 1 := by
  obtain ⟨v, hv, hne⟩ := hnz
  rw [fitnessFromEval, sum_map_div]
  exact div_self (ne_of_gt (rawFitnessSum_pos hlen hv hne))

theorem fitnessFromEval_nonneg (V : List ℚ) : ∀ x ∈ fitnessFromEval V, 0 ≤ x := by
  intro x hx
  obtain ⟨y, hy, rfl⟩ := List.mem_map.mp hx
  obtain ⟨w, hw, rfl⟩ := List.mem_map.mp hy
  refine div_nonneg ?_ (rawFitnessSum_nonneg V)
  have := abs_le_sumAbs_of_mem V w hw
  have := le_abs_self w
  linarith

/-- `class Population` of `src/GA.py`: ordered individuals plus the lazy
evaluation cache (`self._evaluation`, absent = `none`); `size` mirrors
`self._size`. -/
structure Population where
  size : ℕ
  individuals : List Individual
  evaluation : Option (List ℚ)
deriving DecidableEq

/-- The `evaluation` property: the cached vector when present, otherwise
`fun_evaluation` mapped over every chromosome. -/
def Population.evalVec (p : Population) (f : List ℚ → ℚ) : List ℚ :=
  p.evaluation.getD (p.individuals.map fun I => f I.chrom)

/-- The `fitness` property of `Population`. -/
def Population.fitness (p : Population) (f : List ℚ → ℚ) : List ℚ :=
  fitnessFromEval (p.evalVec f)

/-- `np.cumsum`. -/
def cumsum : List ℚ → List ℚ
  | [] => []
  | a :: t => a :: (cumsum t).map (fun x => a + x)

/-- `np.sum(np.random.rand() >= probabilities)`: the number of cumulative
entries that the uniform draw `r` reaches. -/
def selectIdx (probs : List ℚ) (r : ℚ) : ℕ :=
  probs.countP (fun c => decide (c ≤ r))

/-- `Population.select`: roulette selection. One uniform draw per slot
picks `individuals[selectIdx probs r]`; the evaluation cache is reset.
`none` models a raised `IndexError` (draw beyond every cumulative entry). -/
def Population.select (p : Population) (f : List ℚ → ℚ) (draws : List ℚ) :
    Option Population :=
  (draws.mapM (fun r => p.individuals.get? (selectIdx (cumsum (p.fitness f)) r))).map
    (fun sel => { p with individuals := sel, evaluation := none })

/-- `Population.cross_individuals` (static): blends the parents at the
mask-true genes (`pos` is the boolean mask `np.random.rand(dim) <= 0.5`,
multiplied in as 0/1) and assigns both resulting vectors through the
bounds-validating `chrom` setter. -/
def Population.cross_individuals (a b : Individual) (mask : List Bool) (alpha : ℚ) :
    Option (Individual × Individual) :=
  let pos : List ℚ := mask.map (fun m => if m then 1 else 0)
  let va := zip3With (fun x y m => x * m * alpha + y * m * (1 - alpha)) a.chrom b.chrom pos
  let vb := zip3With (fun x y m => x * m * (1 - alpha) + y * m * alpha) a.chrom b.chrom pos
  match (Individual.create a.dim a.lbound a.ubound).setChrom va with
  | none => none
  | some na =>
    match (Individual.create b.dim b.lbound b.ubound).setChrom vb with
    | none => none
    | some nb => some (na, nb)

/-- The pair loop of `Population.crossover`: per pair one rate coin and
one crossover mask; the two children (or the two parents unchanged) are
appended to the candidate pool in order. -/
def crossPool (alpha : ℚ) :
    List (Individual × Individual) → List Bool → List (List Bool) →
      Option (List Individual)
  | [], _, _ => some []
  | ab :: t, coin :: coins, mask :: masks =>
    if coin then
      match Population.cross_individuals ab.1 ab.2 mask alpha with
      | none => none
      | some nab =>
        match crossPool alpha t coins masks with
        | none => none
        | some rest => some (nab.1 :: nab.2 :: rest)
    else
      match crossPool alpha t coins masks with
      | none => none
      | some rest => some (ab.1 :: ab.2 :: rest)
  | _ :: _, _, _ => none

/-- `Population.crossover(rate, alpha)`: pairs the individuals with a
random permutation `perm` of themselves, builds the candidate pool, then
keeps the pool entries at the `pick` indices
(`np.random.choice(new_individuals, size, replace=False)` passed as the
list of drawn indices) and resets the evaluation cache. -/
def Population.crossover (p : Population) (perm : List Individual) (coins : List Bool)
    (masks : List (List Bool)) (alpha : ℚ) (pick : List ℕ) : Option Population :=
  match crossPool alpha (p.individuals.zip perm) coins masks with
  | none => none
  | some pool =>
    match pick.mapM (fun i => pool.get? i) with
    | none => none
    | some sel => some { p with individuals := sel, evaluation := none }

/-- `Population.mutate(num, rate, alpha)`: resets the evaluation cache
first, then for each individual an independent rate coin decides whether
it mutates at its drawn gene positions. -/
def Population.mutate (p : Population) (rateCoin : ℕ → Bool) (positions : ℕ → List ℕ)
    (flips : ℕ → List Bool) (alpha : ℚ) : Population :=
  { p with
    evaluation := none,
    individuals := p.individuals.mapIdx (fun i I =>
      if rateCoin i then I.mutate (positions i) (flips i) alpha else I) }

theorem cumsum_length : ∀ l : List ℚ, (cumsum l).length = l.length
  | [] => rfl
  | a :: t => by simp [cumsum, cumsum_length t]

theorem sum_mem_cumsum : ∀ l : List ℚ, l ≠ [] → l.sum ∈ cumsum l
  | [a], _ => by simp [cumsum]
  | a :: b :: t, _ => by
    have hmem := sum_mem_cumsum (b :: t) (by simp)
    have hs : (a :: b :: t).sum = a + (b :: t).sum := by simp
    rw [hs]
    show a + (b :: t).sum ∈ a :: (cumsum (b :: t)).map (fun x => a + x)
    exact List.mem_cons_of_mem _ (List.mem_map.mpr ⟨(b :: t).sum, hmem, rfl⟩)

theorem cumsum_entry_nonneg : ∀ l : List ℚ, (∀ x ∈ l, 0 ≤ x) →
    ∀ y ∈ cumsum l, 0 ≤ y
  | [], _, y, hy => by simp [cumsum] at hy
  | a :: t, h, y, hy => by
    have ha : 0 ≤ a := h a (by simp)
    rcases List.mem_cons.mp hy with rfl | hy
    · exact ha
    · obtain ⟨z, hz, rfl⟩ := List.mem_map.mp hy
      have := cumsum_entry_nonneg t (fun x hx => h x (by simp [hx])) z hz
      linarith

theorem cumsum_pairwise : ∀ l : List ℚ, (∀ x ∈ l, 0 ≤ x) →
    (cumsum l).Pairwise (· ≤ ·)
  | [], _ => by simp [cumsum]
  | a :: t, h => by
    simp only [cumsum, List.pairwise_cons]
    constructor
    · intro y hy
      obtain ⟨z, hz, rfl⟩ := List.mem_map.mp hy
      have := cumsum_entry_nonneg t (fun x hx => h x (by simp [hx])) z hz
      linarith
    · exact (cumsum_pairwise t (fun x hx => h x (by simp [hx]))).map _
        (fun x y hxy => by simpa using hxy)

theorem countP_lt_length {l : List ℚ} {p : ℚ → Bool} {x : ℚ}
    (hx : x ∈ l) (hpx : p x = false) : l.countP p < l.length := by
  refine lt_of_le_of_ne (List.countP_le_length p) (fun h => ?_)
  have := (List.countP_eq_length.mp h) x hx
  simp [hpx] at this

theorem mapM_option_length {α β : Type} (f : α → Option β) :
    ∀ (l : List α) (r : List β), l.mapM f = some r → r.length = l.length
  | [], r, h => by
    simp only [List.mapM_nil, Option.pure_def, Option.some.injEq] at h
    simp [← h]
  | a :: l, r, h => by
    simp only [List.mapM_cons, Option.pure_def, Option.bind_eq_bind,
      Option.bind_eq_some, Option.some.injEq] at h
    obtain ⟨b, _, r', hr', rfl⟩ := h
    simp [mapM_option_length f l r' hr']

theorem mapM_option_some {α β : Type} (f : α → Option β) :
    ∀ l : List α, (∀ a ∈ l, (f a).isSome) → ∃ r, l.mapM f = some r
  | [], _ => ⟨[], by rw [List.mapM_nil]; rfl⟩
  | a :: l, h => by
    obtain ⟨b, hb⟩ := Option.isSome_iff_exists.mp (h a (by simp))
    obtain ⟨r, hr⟩ := mapM_option_some f l (fun x hx => h x (by simp [hx]))
    refine ⟨b :: r, ?_⟩
    rw [List.mapM_cons, hb, hr]
    rfl

theorem mapM_get_eq_map {α β : Type} [Inhabited β] (g : α → ℕ) :
    ∀ (l : List α) (pool : List β) (sel : List β),
      l.mapM (fun x => pool.get? (g x)) = some sel →
      sel = l.map (fun x => pool.getD (g x) default)
  | [], pool, sel, h => by
    simp only [List.mapM_nil, Option.pure_def, Option.some.injEq] at h
    simp [← h]
  | x :: l, pool, sel, h => by
    simp only [List.mapM_cons, Option.pure_def, Option.bind_eq_bind,
      Option.bind_eq_some, Option.some.injEq] at h
    obtain ⟨b, hb, r', hr', rfl⟩ := h
    have hgd : pool.getD (g x) default = b := by
      rw [List.getD_eq_getElem?_getD, ← List.get?_eq_getElem?, hb]
      rfl
    rw [List.map_cons, ← mapM_get_eq_map g l pool r' hr', hgd]

theorem crossPool_length (alpha : ℚ) :
    ∀ (pairs : List (Individual × Individual)) (coins : List Bool)
      (masks : List (List Bool)) (pool : List Individual),
      crossPool alpha pairs coins masks = some pool →
      pool.length = 2 * pairs.length
  | [], coins, masks, pool => by
    intro h
    simp only [crossPool, Option.some.injEq] at h
    simp [← h]
  | ab :: t, [], masks, pool => by intro h; simp [crossPool] at h
  | ab :: t, coin :: coins, [], pool => by intro h; simp [crossPool] at h
  | ab :: t, coin :: coins, mask :: masks, pool => by
    intro h
    simp only [crossPool] at h
    cases coin with
    | false =>
      rw [if_neg (by simp)] at h
      cases hrest : crossPool alpha t coins masks with
      | none => rw [hrest] at h; exact Option.noConfusion h
      | some rest =>
        rw [hrest] at h
        simp only [Option.some.injEq] at h
        subst h
        have hlen := crossPool_length alpha t coins masks rest hrest
        simp only [List.length_cons, hlen]
        omega
    | true =>
      rw [if_pos rfl] at h
      cases hna : Population.cross_individuals ab.1 ab.2 mask alpha with
      | none => rw [hna] at h; exact Option.noConfusion h
      | some nab =>
        rw [hna] at h
        cases hrest : crossPool alpha t coins masks with
        | none => rw [hrest] at h; exact Option.noConfusion h
        | some rest =>
          rw [hrest] at h
          simp only [Option.some.injEq] at h
          subst h
          have hlen := crossPool_length alpha t coins masks rest hrest
          simp only [List.length_cons, hlen]
          omega

theorem getD_eq_getElem {l : List ℚ} {i : ℕ} (h : i < l.length) : l.getD i 0 = l[i] := by
  rw [List.getD_eq_getElem?_getD, List.getElem?_eq_getElem h, Option.getD_some]

theorem zip_pair_mem {c l : List ℚ} {i : ℕ} (hc : i < c.length) (hl : i < l.length) :
    (c.getD i 0, l.getD i 0) ∈ c.zip l := by
  have hz : i < (c.zip l).length := by rw [List.length_zip]; omega
  rw [getD_eq_getElem hc, getD_eq_getElem hl]
  have hmem := List.getElem_mem hz
  rwa [List.getElem_zip] at hmem

theorem setChrom_eq_some {ind : Individual} {c : List ℚ} {j : Individual} :
    ind.setChrom c = some j ↔
      (ind.dim = c.length ∧ (∀ p ∈ c.zip ind.lbound, p.2 ≤ p.1) ∧
        (∀ p ∈ c.zip ind.ubound, p.1 ≤ p.2)) ∧
      j = { ind with chrom := c } := by
  rw [Individual.setChrom]
  split
  · rename_i h
    constructor
    · intro hj
      exact ⟨h, ((Option.some.injEq _ _).mp hj).symm⟩
    · rintro ⟨-, hj⟩
      rw [hj]
  · rename_i h
    constructor
    · intro hj
      exact Option.noConfusion hj
    · rintro ⟨hc, -⟩
      exact absurd hc h

/-- **C1**: the bounds invariant `lowerBound[i] ≤ chromosome[i] ≤
upperBound[i]` holds at every observable point after construction:
`Individual.initRandom` establishes it (each gene is
`lbound[i] + (ubound[i]-lbound[i])*u` with `u ∈ [0,1)`),
`Individual.mutate` with `alpha ∈ [0,1]` preserves it without clamping,
and the `chrom` setter rejects a vector of wrong length or with any
out-of-bounds component as a fatal error (`none`), never silently
clamping an accepted vector. -/
theorem C1_bounds_invariant :
    (∀ (ind : Individual) (seeds : List ℚ),
      ind.lbound.length = ind.dim → ind.ubound.length = ind.dim →
      seeds.length = ind.dim →
      (∀ i < ind.dim, ind.lbound.getD i 0 ≤ ind.ubound.getD i 0) →
      (∀ s ∈ seeds, 0 ≤ s ∧ s < 1) →
      (ind.initRandom seeds).inBounds) ∧
    (∀ (ind : Individual) (positions : List ℕ) (coins : List Bool) (alpha : ℚ),
      0 ≤ alpha → alpha ≤ 1 → ind.inBounds →
      (ind.mutate positions coins alpha).inBounds) ∧
    (∀ (ind : Individual) (c : List ℚ),
      (ind.dim ≠ c.length → ind.setChrom c = none) ∧
      (∀ i, i < c.length → i < ind.lbound.length →
        c.getD i 0 < ind.lbound.getD i 0 → ind.setChrom c = none) ∧
      (∀ i, i < c.length → i < ind.ubound.length →
        ind.ubound.getD i 0 < c.getD i 0 → ind.setChrom c = none) ∧
      (∀ j, ind.setChrom c = some j →
        j.chrom = c ∧ j.lbound = ind.lbound ∧ j.ubound = ind.ubound ∧
          (ind.lbound.length = ind.dim → ind.ubound.length = ind.dim →
            j.inBounds))) := by
  refine ⟨?_, ?_, ?_⟩
  · intro ind seeds hlb hub hs hle hseed
    intro i hi
    simp only [Individual.initRandom] at hi ⊢
    rw [zip3With_length] at hi
    have hil : i < ind.lbound.length := by omega
    have hiu : i < ind.ubound.length := by omega
    have his : i < seeds.length := by omega
    rw [zip3With_getD _ _ _ _ _ hil hiu his]
    obtain ⟨hs0, hs1⟩ := hseed _ (getD_mem_of_lt his)
    have hlu := hle i (by omega)
    constructor <;> nlinarith
  · intro ind positions coins alpha h0 h1 hinv
    intro i hi
    simp only [Individual.mutate] at hi ⊢
    obtain ⟨hlen, hbnd⟩ :=
      mutate_foldl_preserves h0 h1 (positions.zip coins) ind.chrom hinv
    exact hbnd i (by omega)
  · intro ind c
    refine ⟨?_, ?_, ?_, ?_⟩
    · intro hne
      rw [Individual.setChrom, if_neg]
      rintro ⟨h1, -, -⟩
      exact hne h1
    · intro i hic hil hviol
      rw [Individual.setChrom, if_neg]
      rintro ⟨-, h2, -⟩
      have := h2 _ (zip_pair_mem hic hil)
      simp only at this
      linarith
    · intro i hic hiu hviol
      rw [Individual.setChrom, if_neg]
      rintro ⟨-, -, h3⟩
      have := h3 _ (zip_pair_mem hic hiu)
      simp only at this
      linarith
    · intro j hj
      obtain ⟨⟨hd, h2, h3⟩, rfl⟩ := setChrom_eq_some.mp hj
      refine ⟨rfl, rfl, rfl, ?_⟩
      intro hlb hub i hi
      simp only at hi ⊢
      have hil : i < ind.lbound.length := by omega
      have hiu : i < ind.ubound.length := by omega
      have hlo := h2 _ (zip_pair_mem hi hil)
      have hhi := h3 _ (zip_pair_mem hi hiu)
      simp only at hlo hhi
      exact ⟨hlo, hhi⟩

/-- **C1 witness**: concrete instances of the three clauses. -/
theorem C1_bounds_invariant_witness :
    (Individual.initRandom ⟨2, [0, -1], [2, 3], [5, 5]⟩ [1/2, 0]).inBounds ∧
    (Individual.mutate ⟨1, [0], [2], [1]⟩ [0] [true] (1/2)).inBounds ∧
    Individual.setChrom ⟨1, [0], [2], [1]⟩ [3] = none := by
  refine ⟨C1_bounds_invariant.1 ⟨2, [0, -1], [2, 3], [5, 5]⟩ [1/2, 0]
      rfl rfl rfl ?_ ?_,
    C1_bounds_invariant.2.1 ⟨1, [0], [2], [1]⟩ [0] [true] (1/2)
      (by norm_num) (by norm_num) ?_,
    (C1_bounds_invariant.2.2 ⟨1, [0], [2], [1]⟩ [3]).2.2.1 0
      (by norm_num) (by norm_num) (by norm_num)⟩
  · intro i hi
    interval_cases i <;> norm_num
  · intro s hs
    simp only [List.mem_cons, List.not_mem_nil, or_false] at hs
    rcases hs with rfl | rfl <;> norm_num
  · intro i hi
    simp only [List.length_cons, List.length_nil] at hi
    interval_cases i
    norm_num

/-- **C3** (amended: the population must have at least two individuals
— for a single individual with positive evaluation the normalizer
`sum(sum|V| - V_i)` is zero and the normalized sum is not 1): for every
evaluation vector `V` with `|V| ≥ 2` that is not uniformly zero,
`Population.fitness` equals `(sum|V| - V_i)` divided by the sum of those
components, and the fitness vector sums to 1 in exact arithmetic. -/
theorem C3_fitness_sums_to_one (V : List ℚ) (hlen : 2 ≤ V.length)
    (hnz : ∃ v ∈ V, v ≠ 0) :
    fitnessFromEval V =
      V.map (fun v => (sumAbs V - v) / (V.map (fun w => sumAbs V - w)).sum) ∧
    (fitnessFromEval V).sum = 1 := by
  constructor
  · rw [fitnessFromEval, List.map_map]
    rfl
  · exact fitnessFromEval_sum hlen hnz

/-- **C3 counterexample**: the claim as stated fails for the
single-individual evaluation vector `[5]`, which is not uniformly zero,
yet its fitness vector sums to 0 (the normalizer `sum(sum|V| - V_i)` is
0 there; numpy produces `nan`, the total-division model produces 0 —
either way the sum is not 1). -/
theorem C3_counterexample :
    ¬(∀ v ∈ ([5] : List ℚ), v = 0) ∧ (fitnessFromEval [5]).sum ≠ 1 := by
  constructor
  · intro h
    have := h 5 (by simp)
    norm_num at this
  · have habs : sumAbs [5] = 5 := by
      simp [sumAbs, abs_of_nonneg]
    rw [fitnessFromEval, habs]
    norm_num

/-- **C3 witness**: the two-individual evaluation vector `[1, 2]`. -/
theorem C3_fitness_sums_to_one_witness :
    2 ≤ ([1, 2] : List ℚ).length ∧ (fitnessFromEval [1, 2]).sum = 1 :=
  ⟨by norm_num,
    (C3_fitness_sums_to_one [1, 2] (by norm_num) ⟨1, by norm_num, by norm_num⟩).2⟩

/-- **C4**: for every population of size `N` with a well-defined fitness
vector for `select` (no cached stale vector, at least two individuals,
not-all-zero evaluations, draws below 1) and any crossover inputs,
`Population.select` succeeds and leaves exactly `N` individuals, and
whenever `Population.crossover` completes (its child assignments pass
the bounds assertions) it also leaves exactly `N` individuals (on an
assertion failure the population is left untouched, hence still of size
`N`). -/
theorem C4_population_size_preserved :
    (∀ (p : Population) (f : List ℚ → ℚ) (draws : List ℚ),
      p.evaluation = none →
      p.individuals.length = p.size →
      draws.length = p.size →
      2 ≤ p.size →
      (∃ I ∈ p.individuals, f I.chrom ≠ 0) →
      (∀ r ∈ draws, r < 1) →
      ∃ q, p.select f draws = some q ∧ q.individuals.length = p.size) ∧
    (∀ (p : Population) (perm : List Individual) (coins : List Bool)
        (masks : List (List Bool)) (alpha : ℚ) (pick : List ℕ) (q : Population),
      pick.length = p.size →
      p.crossover perm coins masks alpha pick = some q →
      q.individuals.length = p.size) := by
  constructor
  · intro p f draws hcache hplen hdlen hsize hnz hdraws
    have hV : p.evalVec f = p.individuals.map fun I => f I.chrom := by
      rw [Population.evalVec, hcache, Option.getD_none]
    have hVlen : (p.evalVec f).length = p.size := by
      rw [hV, List.length_map, hplen]
    have hVnz : ∃ v ∈ p.evalVec f, v ≠ 0 := by
      obtain ⟨I, hI, hIne⟩ := hnz
      exact ⟨f I.chrom, by rw [hV]; exact List.mem_map_of_mem _ hI, hIne⟩
    have hfitsum : (p.fitness f).sum = 1 :=
      fitnessFromEval_sum (by omega) hVnz
    have hfitlen : (p.fitness f).length = p.size := by
      rw [Population.fitness, fitnessFromEval_length, hVlen]
    have hone : (1 : ℚ) ∈ cumsum (p.fitness f) := by
      rw [← hfitsum]
      exact sum_mem_cumsum _ (by
        intro hnil
        rw [hnil] at hfitlen
        simp at hfitlen
        omega)
    have hidx : ∀ r ∈ draws,
        (p.individuals.get? (selectIdx (cumsum (p.fitness f)) r)).isSome := by
      intro r hr
      have hlt : selectIdx (cumsum (p.fitness f)) r <
          (cumsum (p.fitness f)).length :=
        countP_lt_length hone (decide_eq_false (not_le.mpr (hdraws r hr)))
      rw [cumsum_length, hfitlen, ← hplen] at hlt
      rw [List.get?_eq_getElem?, List.getElem?_eq_getElem hlt]
      rfl
    obtain ⟨sel, hsel⟩ := mapM_option_some _ draws hidx
    refine ⟨{ p with individuals := sel, evaluation := none }, ?_, ?_⟩
    · rw [Population.select, hsel, Option.map_some']
    · have := mapM_option_length _ draws sel hsel
      simp only
      omega
  · intro p perm coins masks alpha pick q hpick h
    rw [Population.crossover] at h
    split at h
    · exact Option.noConfusion h
    · split at h
      · exact Option.noConfusion h
      · rename_i pool hpool sel hsel
        simp only [Option.some.injEq] at h
        subst h
        have := mapM_option_length _ pick sel hsel
        simp only
        omega

/-- **C4 witness**: a two-individual population; `select` with draws
`[0, 0]` succeeds, and a crossover whose rate coins are all false (both
parents kept) with picks `[0, 1]` preserves the size 2. -/
theorem C4_population_size_preserved_witness :
    ((Population.mk 2 [⟨1, [-10], [10], [1]⟩, ⟨1, [-10], [10], [2]⟩] none).select
        (fun c => c.getD 0 0) [0, 0]).isSome = true ∧
    ∃ q, (Population.mk 2 [⟨1, [-10], [10], [1]⟩, ⟨1, [-10], [10], [2]⟩]
        none).crossover [⟨1, [-10], [10], [2]⟩, ⟨1, [-10], [10], [1]⟩]
        [false, false] [[true], [true]] (1/2) [0, 1] = some q ∧
      q.individuals.length = 2 := by
  constructor
  · obtain ⟨q, hq, -⟩ := C4_population_size_preserved.1
      (Population.mk 2 [⟨1, [-10], [10], [1]⟩, ⟨1, [-10], [10], [2]⟩] none)
      (fun c => c.getD 0 0) [0, 0] rfl rfl rfl (by norm_num)
      ⟨⟨1, [-10], [10], [2]⟩, by simp, by norm_num⟩
      (by intro r hr; simp only [List.mem_cons, List.not_mem_nil, or_false] at hr
          rcases hr with rfl | rfl <;> norm_num)
    rw [hq]
    rfl
  · have h : (Population.mk 2 [⟨1, [-10], [10], [1]⟩, ⟨1, [-10], [10], [2]⟩]
        none).crossover [⟨1, [-10], [10], [2]⟩, ⟨1, [-10], [10], [1]⟩]
        [false, false] [[true], [true]] (1/2) [0, 1] =
        some (Population.mk 2 [⟨1, [-10], [10], [1]⟩, ⟨1, [-10], [10], [2]⟩]
          none) := by
      rfl
    exact ⟨_, h, C4_population_size_preserved.2 _ _ _ _ _ _ _ rfl h⟩

/-- **C7**: every operator that changes membership or chromosome content
clears the evaluation cache: whenever `Population.select` or
`Population.crossover` returns a population its cache is absent, and
`Population.mutate` resets the cache unconditionally — even for rate
coins that mutate no individual at all. -/
theorem C7_cache_invalidation :
    (∀ (p : Population) (f : List ℚ → ℚ) (draws : List ℚ),
      (p.select f draws).elim True (fun q => q.evaluation = none)) ∧
    (∀ (p : Population) (perm : List Individual) (coins : List Bool)
        (masks : List (List Bool)) (alpha : ℚ) (pick : List ℕ),
      (p.crossover perm coins masks alpha pick).elim True
        (fun q => q.evaluation = none)) ∧
    (∀ (p : Population) (rateCoin : ℕ → Bool) (positions : ℕ → List ℕ)
        (flips : ℕ → List Bool) (alpha : ℚ),
      (p.mutate rateCoin positions flips alpha).evaluation = none) := by
  refine ⟨?_, ?_, ?_⟩
  · intro p f draws
    rw [Population.select]
    cases hsel : draws.mapM
        (fun r => p.individuals.get? (selectIdx (cumsum (p.fitness f)) r)) with
    | none => rw [Option.map_none']; trivial
    | some sel => rw [Option.map_some']; rfl
  · intro p perm coins masks alpha pick
    rw [Population.crossover]
    split
    · trivial
    · split
      · trivial
      · rfl
  · intro p rateCoin positions flips alpha
    rfl

/-- The spec's reading of the roulette draw, for refinement comparison:
the first cumulative-fitness index whose entry is `≥` the draw. -/
def selectIdxSpec (probs : List ℚ) (r : ℚ) : ℕ :=
  probs.findIdx (fun c => decide (r ≤ c))

theorem selectIdx_eq_findIdx_gt :
    ∀ probs : List ℚ, probs.Pairwise (· ≤ ·) → ∀ r : ℚ,
      selectIdx probs r = probs.findIdx (fun c => decide (r < c))
  | [], _, r => rfl
  | c :: t, hp, r => by
    obtain ⟨hhead, htail⟩ := List.pairwise_cons.mp hp
    rw [selectIdx, List.countP_cons, List.findIdx_cons]
    by_cases hcr : c ≤ r
    · rw [if_pos (by simp [hcr]), decide_eq_false (not_lt.mpr hcr)]
      simp only [cond_false]
      rw [show List.countP (fun c => decide (c ≤ r)) t = selectIdx t r from rfl,
        selectIdx_eq_findIdx_gt t htail r]
    · have hrc : r < c := not_le.mp hcr
      rw [if_neg (by simp [hcr]), decide_eq_true hrc]
      simp only [cond_true, Nat.add_zero]
      rw [List.countP_eq_zero.mpr]
      intro x hx
      simp only [decide_eq_true_eq, not_le]
      exact lt_of_lt_of_le hrc (hhead x hx)

/-- **C8** (amended: for each draw the code selects the individual at
the first cumulative-fitness index that is STRICTLY greater than the
draw — equivalently at the index counting the cumulative entries `≤`
the draw; the spec's "first index that is ≥ the draw" differs exactly
when a draw equals a cumulative entry): `Population.select` builds the
cumulative sum of the (nonnegative, hence sorted-cumulative) fitness
vector, and replaces the whole individual sequence by
`individuals[selectIdx]` per draw, sampling with replacement. -/
theorem C8_roulette_selection :
    (∀ V : List ℚ, ∀ x ∈ fitnessFromEval V, 0 ≤ x) ∧
    (∀ V : List ℚ, (cumsum (fitnessFromEval V)).Pairwise (· ≤ ·)) ∧
    (∀ probs : List ℚ, probs.Pairwise (· ≤ ·) → ∀ r : ℚ,
      selectIdx probs r = probs.findIdx (fun c => decide (r < c))) ∧
    (∀ (p : Population) (f : List ℚ → ℚ) (draws : List ℚ),
      (p.select f draws).elim True (fun q =>
        q.individuals =
          draws.map (fun r =>
            p.individuals.getD (selectIdx (cumsum (p.fitness f)) r) default) ∧
        q.size = p.size ∧ q.evaluation = none)) := by
  refine ⟨fitnessFromEval_nonneg, ?_, selectIdx_eq_findIdx_gt, ?_⟩
  · intro V
    exact cumsum_pairwise _ (fitnessFromEval_nonneg V)
  · intro p f draws
    rw [Population.select]
    cases hsel : draws.mapM
        (fun r => p.individuals.get? (selectIdx (cumsum (p.fitness f)) r)) with
    | none => rw [Option.map_none']; trivial
    | some sel =>
      rw [Option.map_some']
      exact ⟨mapM_get_eq_map _ draws p.individuals sel hsel, rfl, rfl⟩

/-- **C8 counterexample**: with evaluation vector `[1, 1]` the cumulative
fitness is `[1/2, 1]`; at the draw `1/2` the code selects index 1 (count
of cumulative entries `≤ 1/2`), while the claimed "first cumulative index
`≥` the draw" is index 0. -/
theorem C8_counterexample :
    selectIdx (cumsum (fitnessFromEval [1, 1])) (1/2) = 1 ∧
    selectIdxSpec (cumsum (fitnessFromEval [1, 1])) (1/2) = 0 := by
  have hfit : fitnessFromEval [1, 1] = [1/2, 1/2] := by
    rw [fitnessFromEval]
    norm_num [sumAbs]
  have hcum : cumsum [(1:ℚ)/2, 1/2] = [1/2, 1] := by
    rw [show cumsum [(1:ℚ)/2, 1/2] =
        [1/2, 1/2 + 1/2] from rfl]
    norm_num
  rw [hfit, hcum]
  constructor
  · rw [selectIdx, List.countP_cons, List.countP_cons, List.countP_nil]
    norm_num
  · rw [selectIdxSpec, List.findIdx_cons]
    norm_num

/-- **C8 witness**: the strict-greater characterization evaluated on the
sorted cumulative list `[1/2, 1]` at the draw `1/4`. -/
theorem C8_roulette_selection_witness :
    selectIdx [1/2, 1] (1/4) =
      ([1/2, 1] : List ℚ).findIdx (fun c => decide ((1:ℚ)/4 < c)) :=
  C8_roulette_selection.2.2.1 [1/2, 1]
    (by simp [List.pairwise_cons]; norm_num) (1/4)

theorem getD_eq_getElem_any {α : Type} {l : List α} {i : ℕ} {d : α}
    (h : i < l.length) : l.getD i d = l[i] := by
  rw [List.getD_eq_getElem?_getD, List.getElem?_eq_getElem h, Option.getD_some]

theorem cross_individuals_eq (a b : Individual) (mask : List Bool) (alpha : ℚ) :
    Population.cross_individuals a b mask alpha =
      match (Individual.create a.dim a.lbound a.ubound).setChrom
          (zip3With (fun x y m => x * m * alpha + y * m * (1 - alpha))
            a.chrom b.chrom (mask.map (fun m => if m then 1 else 0))) with
      | none => none
      | some na =>
        match (Individual.create b.dim b.lbound b.ubound).setChrom
            (zip3With (fun x y m => x * m * (1 - alpha) + y * m * alpha)
              a.chrom b.chrom (mask.map (fun m => if m then 1 else 0))) with
        | none => none
        | some nb => some (na, nb) := rfl

theorem maskQ_getD {mask : List Bool} {i : ℕ} (h : i < mask.length) :
    (mask.map (fun m => if m then (1:ℚ) else 0)).getD i 0 =
      (if mask.getD i false = true then (1:ℚ) else 0) := by
  have hm : i < (mask.map (fun m => if m then (1:ℚ) else 0)).length := by
    rw [List.length_map]; omega
  rw [getD_eq_getElem_any hm, List.getElem_map, getD_eq_getElem_any h]

/-- **C2** (amended: the call returns children only when both blended
vectors pass the bounds-validating `chrom` setter; otherwise it raises an
assertion error — see C10): whenever `cross_individuals` returns two
children for parents of dimension `D` and any `alpha`, the children are
newly constructed with the parents' bounds, at every mask-true position
`i` child A's gene is `alpha*a[i] + (1-alpha)*b[i]` and child B's is
`(1-alpha)*a[i] + alpha*b[i]`, and at every mask-false position both
children's genes are exactly 0 (the parents' values are not retained). -/
theorem C2_cross_individuals_blend :
    ∀ (a b : Individual) (mask : List Bool) (alpha : ℚ) (ca cb : Individual),
      a.chrom.length = a.dim → b.chrom.length = a.dim → mask.length = a.dim →
      Population.cross_individuals a b mask alpha = some (ca, cb) →
      ca.lbound = a.lbound ∧ ca.ubound = a.ubound ∧
      cb.lbound = b.lbound ∧ cb.ubound = b.ubound ∧
      ∀ i < a.dim,
        (mask.getD i false = true →
          ca.chrom.getD i 0 =
            alpha * a.chrom.getD i 0 + (1 - alpha) * b.chrom.getD i 0 ∧
          cb.chrom.getD i 0 =
            (1 - alpha) * a.chrom.getD i 0 + alpha * b.chrom.getD i 0) ∧
        (mask.getD i false = false →
          ca.chrom.getD i 0 = 0 ∧ cb.chrom.getD i 0 = 0) := by
  intro a b mask alpha ca cb hla hlb hlm h
  rw [cross_individuals_eq] at h
  split at h
  · exact Option.noConfusion h
  · rename_i na hna
    split at h
    · exact Option.noConfusion h
    · rename_i nb hnb
      simp only [Option.some.injEq, Prod.mk.injEq] at h
      obtain ⟨rfl, rfl⟩ := h
      obtain ⟨⟨-, -, -⟩, rfl⟩ := setChrom_eq_some.mp hna
      obtain ⟨⟨-, -, -⟩, rfl⟩ := setChrom_eq_some.mp hnb
      refine ⟨rfl, rfl, rfl, rfl, ?_⟩
      intro i hi
      have hia : i < a.chrom.length := by omega
      have hib : i < b.chrom.length := by omega
      have hip : i < (mask.map (fun m => if m then (1:ℚ) else 0)).length := by
        rw [List.length_map]; omega
      have hca : ({ Individual.create a.dim a.lbound a.ubound with
          chrom := zip3With (fun x y m => x * m * alpha + y * m * (1 - alpha))
            a.chrom b.chrom
            (mask.map (fun m => if m then 1 else 0)) } : Individual).chrom.getD i 0 =
          a.chrom.getD i 0 * ((mask.map (fun m => if m then (1:ℚ) else 0)).getD i 0)
            * alpha +
          b.chrom.getD i 0 * ((mask.map (fun m => if m then (1:ℚ) else 0)).getD i 0)
            * (1 - alpha) := by
        exact zip3With_getD _ _ _ _ _ hia hib (by rw [List.length_map]; omega)
      have hcbv : ({ Individual.create b.dim b.lbound b.ubound with
          chrom := zip3With (fun x y m => x * m * (1 - alpha) + y * m * alpha)
            a.chrom b.chrom
            (mask.map (fun m => if m then 1 else 0)) } : Individual).chrom.getD i 0 =
          a.chrom.getD i 0 * ((mask.map (fun m => if m then (1:ℚ) else 0)).getD i 0)
            * (1 - alpha) +
          b.chrom.getD i 0 * ((mask.map (fun m => if m then (1:ℚ) else 0)).getD i 0)
            * alpha := by
        exact zip3With_getD _ _ _ _ _ hia hib (by rw [List.length_map]; omega)
      rw [maskQ_getD (show i < mask.length by omega)] at hca hcbv
      constructor
      · intro hmask
        rw [hmask, if_pos rfl] at hca hcbv
        rw [hca, hcbv]
        constructor <;> ring
      · intro hmask
        rw [hmask] at hca hcbv
        rw [if_neg (by simp)] at hca hcbv
        rw [hca, hcbv]
        constructor <;> ring

/-- **C2 counterexample**: for parents with bounds `[1, 2]` (an interval
not containing 0) and a mask that is false at the only gene, the claimed
"returns two newly constructed children" fails: the zeroed gene violates
the setter's bounds assertion and the call raises (`none`). -/
theorem C2_counterexample :
    Population.cross_individuals ⟨1, [1], [2], [1]⟩ ⟨1, [1], [2], [2]⟩
      [false] (1/2) = none := by
  rw [cross_individuals_eq]
  have hva : zip3With (fun x y m => x * m * (1/2) + y * m * (1 - 1/2))
      [1] [2] ([false].map (fun m => if m then (1:ℚ) else 0)) = [0] := by
    show zip3With _ [1] [2] [0] = [0]
    rw [show zip3With (fun x y m => x * m * (1/2) + y * m * (1 - 1/2)) [1] [2] [0] =
      [1 * 0 * (1/2) + 2 * 0 * (1 - 1/2)] from rfl]
    norm_num
  rw [hva]
  rw [show (Individual.create 1 [1] [2]).setChrom [0] = none from by
    rw [Individual.setChrom, if_neg]
    rintro ⟨-, h2, -⟩
    have := h2 (0, 1) (by simp [Individual.create])
    norm_num at this]

/-- **C2 witness**: a successful crossover of in-bounds parents with
`alpha = 1/4` and mask `[true, false]`: the mask-true gene is blended,
the mask-false gene is zeroed in both children. -/
theorem C2_cross_individuals_blend_witness :
    Population.cross_individuals ⟨2, [-2, -2], [2, 2], [1, 2]⟩
        ⟨2, [-2, -2], [2, 2], [2, 0]⟩ [true, false] (1/4) =
      some (⟨2, [-2, -2], [2, 2], [7/4, 0]⟩, ⟨2, [-2, -2], [2, 2], [5/4, 0]⟩) ∧
    (⟨2, [-2, -2], [2, 2], [7/4, 0]⟩ : Individual).lbound = [-2, -2] ∧
    (⟨2, [-2, -2], [2, 2], [7/4, 0]⟩ : Individual).chrom.getD 1 0 = 0 ∧
    (⟨2, [-2, -2], [2, 2], [5/4, 0]⟩ : Individual).chrom.getD 1 0 = 0 := by
  have hva : zip3With (fun x y m => x * m * (1/4) + y * m * (1 - 1/4))
      [1, 2] [2, 0] ([true, false].map (fun m => if m then (1:ℚ) else 0)) =
      [7/4, 0] := by
    show zip3With _ [1, 2] [2, 0] [1, 0] = [7/4, 0]
    rw [show zip3With (fun x y m => x * m * (1/4) + y * m * (1 - 1/4))
        [1, 2] [2, 0] [1, 0] =
      [1 * 1 * (1/4) + 2 * 1 * (1 - 1/4), 2 * 0 * (1/4) + 0 * 0 * (1 - 1/4)]
      from rfl]
    norm_num
  have hvb : zip3With (fun x y m => x * m * (1 - 1/4) + y * m * (1/4))
      [1, 2] [2, 0] ([true, false].map (fun m => if m then (1:ℚ) else 0)) =
      [5/4, 0] := by
    show zip3With _ [1, 2] [2, 0] [1, 0] = [5/4, 0]
    rw [show zip3With (fun x y m => x * m * (1 - 1/4) + y * m * (1/4))
        [1, 2] [2, 0] [1, 0] =
      [1 * 1 * (1 - 1/4) + 2 * 1 * (1/4), 2 * 0 * (1 - 1/4) + 0 * 0 * (1/4)]
      from rfl]
    norm_num
  have hsa : (Individual.create 2 [-2, -2] [2, 2]).setChrom [7/4, 0] =
      some ⟨2, [-2, -2], [2, 2], [7/4, 0]⟩ := by
    rw [Individual.setChrom, if_pos]
    · rfl
    · refine ⟨rfl, ?_, ?_⟩ <;>
        · intro p hp
          simp only [Individual.create, List.zip_cons_cons, List.zip_nil_right,
            List.mem_cons, List.not_mem_nil, or_false] at hp
          rcases hp with rfl | rfl <;> norm_num
  have hsb : (Individual.create 2 [-2, -2] [2, 2]).setChrom [5/4, 0] =
      some ⟨2, [-2, -2], [2, 2], [5/4, 0]⟩ := by
    rw [Individual.setChrom, if_pos]
    · rfl
    · refine ⟨rfl, ?_, ?_⟩ <;>
        · intro p hp
          simp only [Individual.create, List.zip_cons_cons, List.zip_nil_right,
            List.mem_cons, List.not_mem_nil, or_false] at hp
          rcases hp with rfl | rfl <;> norm_num
  have h : Population.cross_individuals ⟨2, [-2, -2], [2, 2], [1, 2]⟩
      ⟨2, [-2, -2], [2, 2], [2, 0]⟩ [true, false] (1/4) =
      some (⟨2, [-2, -2], [2, 2], [7/4, 0]⟩, ⟨2, [-2, -2], [2, 2], [5/4, 0]⟩) := by
    rw [cross_individuals_eq]
    rw [show (⟨2, [-2, -2], [2, 2], [1, 2]⟩ : Individual).chrom = [1, 2] from rfl]
    rw [show (⟨2, [-2, -2], [2, 2], [2, 0]⟩ : Individual).chrom = [2, 0] from rfl]
    rw [hva, hvb, hsa, hsb]
  have hconc := C2_cross_individuals_blend _ _ _ _ _ _ rfl rfl rfl h
  refine ⟨h, hconc.1, ?_, ?_⟩
  · exact ((hconc.2.2.2.2 1 (by norm_num)).2 rfl).1
  · exact ((hconc.2.2.2.2 1 (by norm_num)).2 rfl).2

theorem zip3With_zero_at {a b pos : List ℚ} {i : ℕ} {alpha beta : ℚ}
    (hia : i < a.length) (hib : i < b.length) (hip : i < pos.length)
    (hpos : pos.getD i 0 = 0) :
    (zip3With (fun x y m => x * m * alpha + y * m * beta) a b pos).getD i 0 = 0 := by
  rw [zip3With_getD _ _ _ _ _ hia hib hip, hpos]
  ring

/-- **C10**: `cross_individuals` assigns the children through the
bounds-validating `chrom` setter while zeroing every mask-false gene;
hence for parents whose bounds at some gene `i` exclude 0 (for either
parent), any mask that is false at `i` makes the call raise an assertion
error instead of returning children, and the call returns children only
when each mask-false gene's bounds interval contains 0 for both
parents. -/
theorem C10_cross_zero_bounds :
    (∀ (a b : Individual) (mask : List Bool) (alpha : ℚ) (i : ℕ),
      a.chrom.length = a.dim → b.chrom.length = a.dim → mask.length = a.dim →
      a.lbound.length = a.dim → a.ubound.length = a.dim →
      b.lbound.length = a.dim → b.ubound.length = a.dim →
      i < a.dim → mask.getD i false = false →
      (0 < a.lbound.getD i 0 ∨ a.ubound.getD i 0 < 0 ∨
        0 < b.lbound.getD i 0 ∨ b.ubound.getD i 0 < 0) →
      Population.cross_individuals a b mask alpha = none) ∧
    (∀ (a b : Individual) (mask : List Bool) (alpha : ℚ) (ca cb : Individual)
        (i : ℕ),
      a.chrom.length = a.dim → b.chrom.length = a.dim → mask.length = a.dim →
      a.lbound.length = a.dim → a.ubound.length = a.dim →
      b.lbound.length = a.dim → b.ubound.length = a.dim →
      i < a.dim → mask.getD i false = false →
      Population.cross_individuals a b mask alpha = some (ca, cb) →
      a.lbound.getD i 0 ≤ 0 ∧ 0 ≤ a.ubound.getD i 0 ∧
        b.lbound.getD i 0 ≤ 0 ∧ 0 ≤ b.ubound.getD i 0) := by
  have hposlen : ∀ (mask : List Bool),
      (mask.map (fun m => if m then (1:ℚ) else 0)).length = mask.length := by
    intro mask
    rw [List.length_map]
  have hpos0 : ∀ (mask : List Bool) (i : ℕ), i < mask.length →
      mask.getD i false = false →
      (mask.map (fun m => if m then (1:ℚ) else 0)).getD i 0 = 0 := by
    intro mask i hi hm
    rw [maskQ_getD hi, hm, if_neg (by simp)]
  constructor
  · intro a b mask alpha i hca hcb hm hal hau hbl hbu hi hmask hbad
    rw [cross_individuals_eq]
    have hva0 : (zip3With (fun x y m => x * m * alpha + y * m * (1 - alpha))
        a.chrom b.chrom (mask.map (fun m => if m then 1 else 0))).getD i 0 = 0 :=
      zip3With_zero_at (by omega) (by omega)
        (by rw [hposlen]; omega) (hpos0 mask i (by omega) hmask)
    have hvb0 : (zip3With (fun x y m => x * m * (1 - alpha) + y * m * alpha)
        a.chrom b.chrom (mask.map (fun m => if m then 1 else 0))).getD i 0 = 0 :=
      zip3With_zero_at (by omega) (by omega)
        (by rw [hposlen]; omega) (hpos0 mask i (by omega) hmask)
    have hvalen : (zip3With (fun x y m => x * m * alpha + y * m * (1 - alpha))
        a.chrom b.chrom (mask.map (fun m => if m then 1 else 0))).length = a.dim := by
      rw [zip3With_length, hposlen]
      omega
    have hvblen : (zip3With (fun x y m => x * m * (1 - alpha) + y * m * alpha)
        a.chrom b.chrom (mask.map (fun m => if m then 1 else 0))).length = a.dim := by
      rw [zip3With_length, hposlen]
      omega
    rcases hbad with h | h | h | h
    · have hnone : (Individual.create a.dim a.lbound a.ubound).setChrom
          (zip3With (fun x y m => x * m * alpha + y * m * (1 - alpha))
            a.chrom b.chrom (mask.map (fun m => if m then 1 else 0))) = none := by
        rw [Individual.setChrom, if_neg]
        rintro ⟨-, h2, -⟩
        have := h2 _ (zip_pair_mem (by omega)
          (show i < (Individual.create a.dim a.lbound a.ubound).lbound.length by
            simp [Individual.create]; omega))
        simp only [Individual.create] at this
        rw [hva0] at this
        linarith
      rw [hnone]
    · have hnone : (Individual.create a.dim a.lbound a.ubound).setChrom
          (zip3With (fun x y m => x * m * alpha + y * m * (1 - alpha))
            a.chrom b.chrom (mask.map (fun m => if m then 1 else 0))) = none := by
        rw [Individual.setChrom, if_neg]
        rintro ⟨-, -, h3⟩
        have := h3 _ (zip_pair_mem (by omega)
          (show i < (Individual.create a.dim a.lbound a.ubound).ubound.length by
            simp [Individual.create]; omega))
        simp only [Individual.create] at this
        rw [hva0] at this
        linarith
      rw [hnone]
    · have hnone : (Individual.create b.dim b.lbound b.ubound).setChrom
          (zip3With (fun x y m => x * m * (1 - alpha) + y * m * alpha)
            a.chrom b.chrom (mask.map (fun m => if m then 1 else 0))) = none := by
        rw [Individual.setChrom, if_neg]
        rintro ⟨-, h2, -⟩
        have := h2 _ (zip_pair_mem (by omega)
          (show i < (Individual.create b.dim b.lbound b.ubound).lbound.length by
            simp [Individual.create]; omega))
        simp only [Individual.create] at this
        rw [hvb0] at this
        linarith
      cases hA : (Individual.create a.dim a.lbound a.ubound).setChrom
          (zip3With (fun x y m => x * m * alpha + y * m * (1 - alpha))
            a.chrom b.chrom (mask.map (fun m => if m then 1 else 0))) with
      | none => rfl
      | some na => rw [hnone]
    · have hnone : (Individual.create b.dim b.lbound b.ubound).setChrom
          (zip3With (fun x y m => x * m * (1 - alpha) + y * m * alpha)
            a.chrom b.chrom (mask.map (fun m => if m then 1 else 0))) = none := by
        rw [Individual.setChrom, if_neg]
        rintro ⟨-, -, h3⟩
        have := h3 _ (zip_pair_mem (by omega)
          (show i < (Individual.create b.dim b.lbound b.ubound).ubound.length by
            simp [Individual.create]; omega))
        simp only [Individual.create] at this
        rw [hvb0] at this
        linarith
      cases hA : (Individual.create a.dim a.lbound a.ubound).setChrom
          (zip3With (fun x y m => x * m * alpha + y * m * (1 - alpha))
            a.chrom b.chrom (mask.map (fun m => if m then 1 else 0))) with
      | none => rfl
      | some na => rw [hnone]
  · intro a b mask alpha ca cb i hca hcb hm hal hau hbl hbu hi hmask h
    rw [cross_individuals_eq] at h
    split at h
    · exact Option.noConfusion h
    · rename_i na hna
      split at h
      · exact Option.noConfusion h
      · rename_i nb hnb
        obtain ⟨⟨-, h2a, h3a⟩, -⟩ := setChrom_eq_some.mp hna
        obtain ⟨⟨-, h2b, h3b⟩, -⟩ := setChrom_eq_some.mp hnb
        have hva0 : (zip3With (fun x y m => x * m * alpha + y * m * (1 - alpha))
            a.chrom b.chrom (mask.map (fun m => if m then 1 else 0))).getD i 0 = 0 :=
          zip3With_zero_at (by omega) (by omega)
            (by rw [hposlen]; omega) (hpos0 mask i (by omega) hmask)
        have hvb0 : (zip3With (fun x y m => x * m * (1 - alpha) + y * m * alpha)
            a.chrom b.chrom (mask.map (fun m => if m then 1 else 0))).getD i 0 = 0 :=
          zip3With_zero_at (by omega) (by omega)
            (by rw [hposlen]; omega) (hpos0 mask i (by omega) hmask)
        have hvalen : (zip3With (fun x y m => x * m * alpha + y * m * (1 - alpha))
            a.chrom b.chrom
            (mask.map (fun m => if m then 1 else 0))).length = a.dim := by
          rw [zip3With_length, hposlen]
          omega
        have hvblen : (zip3With (fun x y m => x * m * (1 - alpha) + y * m * alpha)
            a.chrom b.chrom
            (mask.map (fun m => if m then 1 else 0))).length = a.dim := by
          rw [zip3With_length, hposlen]
          omega
        have ha2 := h2a _ (zip_pair_mem (by omega)
          (show i < (Individual.create a.dim a.lbound a.ubound).lbound.length by
            simp [Individual.create]; omega))
        have ha3 := h3a _ (zip_pair_mem (by omega)
          (show i < (Individual.create a.dim a.lbound a.ubound).ubound.length by
            simp [Individual.create]; omega))
        have hb2 := h2b _ (zip_pair_mem (by omega)
          (show i < (Individual.create b.dim b.lbound b.ubound).lbound.length by
            simp [Individual.create]; omega))
        have hb3 := h3b _ (zip_pair_mem (by omega)
          (show i < (Individual.create b.dim b.lbound b.ubound).ubound.length by
            simp [Individual.create]; omega))
        simp only [Individual.create] at ha2 ha3 hb2 hb3
        rw [hva0] at ha2 ha3
        rw [hvb0] at hb2 hb3
        exact ⟨ha2, ha3, hb2, hb3⟩

/-- **C10 witness**: bounds `[3, 4]` exclude 0, so a mask-false gene
aborts the crossover; bounds `[-1, 1]` contain 0 and the crossover that
returns does so with the zeroed gene, and indeed `-1 ≤ 0 ≤ 1`. -/
theorem C10_cross_zero_bounds_witness :
    Population.cross_individuals ⟨1, [3], [4], [3]⟩ ⟨1, [3], [4], [4]⟩
      [false] 0 = none ∧
    ((⟨1, [-1], [1], [1]⟩ : Individual).lbound.getD 0 0 ≤ 0 ∧
      0 ≤ (⟨1, [-1], [1], [1]⟩ : Individual).ubound.getD 0 0 ∧
      (⟨1, [-1], [1], [1]⟩ : Individual).lbound.getD 0 0 ≤ 0 ∧
      0 ≤ (⟨1, [-1], [1], [1]⟩ : Individual).ubound.getD 0 0) := by
  constructor
  · exact C10_cross_zero_bounds.1 ⟨1, [3], [4], [3]⟩ ⟨1, [3], [4], [4]⟩
      [false] 0 0 rfl rfl rfl rfl rfl rfl rfl (by norm_num) rfl
      (Or.inl (by norm_num))
  · have hva : zip3With (fun x y m => x * m * (1/3) + y * m * (1 - 1/3))
        [1] [1] ([false].map (fun m => if m then (1:ℚ) else 0)) = [0] := by
      show zip3With _ [1] [1] [0] = [0]
      rw [show zip3With (fun x y m => x * m * (1/3) + y * m * (1 - 1/3))
          [1] [1] [0] = [1 * 0 * (1/3) + 1 * 0 * (1 - 1/3)] from rfl]
      norm_num
    have hvb : zip3With (fun x y m => x * m * (1 - 1/3) + y * m * (1/3))
        [1] [1] ([false].map (fun m => if m then (1:ℚ) else 0)) = [0] := by
      show zip3With _ [1] [1] [0] = [0]
      rw [show zip3With (fun x y m => x * m * (1 - 1/3) + y * m * (1/3))
          [1] [1] [0] = [1 * 0 * (1 - 1/3) + 1 * 0 * (1/3)] from rfl]
      norm_num
    have hset : (Individual.create 1 [-1] [1]).setChrom [0] =
        some ⟨1, [-1], [1], [0]⟩ := by
      rw [Individual.setChrom, if_pos]
      · rfl
      · refine ⟨rfl, ?_, ?_⟩ <;>
          · intro p hp
            simp only [Individual.create, List.zip_cons_cons, List.zip_nil_right,
              List.mem_cons, List.not_mem_nil, or_false] at hp
            rcases hp with rfl
            norm_num
    have h : Population.cross_individuals ⟨1, [-1], [1], [1]⟩
        ⟨1, [-1], [1], [1]⟩ [false] (1/3) =
        some (⟨1, [-1], [1], [0]⟩, ⟨1, [-1], [1], [0]⟩) := by
      rw [cross_individuals_eq]
      rw [show (⟨1, [-1], [1], [1]⟩ : Individual).chrom = [1] from rfl]
      rw [hva, hvb, hset]
    exact C10_cross_zero_bounds.2 ⟨1, [-1], [1], [1]⟩ ⟨1, [-1], [1], [1]⟩
      [false] (1/3) ⟨1, [-1], [1], [0]⟩ ⟨1, [-1], [1], [0]⟩ 0
      rfl rfl rfl rfl rfl rfl rfl (by norm_num) rfl h

/-- Modelled from the spec: the modular variant's `Population`,
`Selection`, `Crossover` and `Mutation` classes are not under `src/`
(only `src/GA/GAProcess.py` uses them).  A strategy object carries its
declared compatible-individual-representation set `individual_class`
(a list of representation tags; the empty list is falsy in Python),
per spec section 4.4 and section 6. -/
structure Strategy where
  individual_class : List ℕ

/-- Modelled from the spec: the modular population exposes a template
`individual`, whose class is the population's individual
representation. -/
structure ModularPopulation where
  individualClass : ℕ

/-- `GA.__init__` of `src/GA/GAProcess.py`: raises `ValueError` when the
crossover or mutation strategy declares no compatible representation or
does not declare the population's one; otherwise stores the
collaborators. -/
def GAInit (population : ModularPopulation) (crossover mutation : Strategy) :
    Except String (ModularPopulation × Strategy × Strategy) :=
  if crossover.individual_class = [] ∨
      population.individualClass ∉ crossover.individual_class then
    .error "incompatible Individual class and Crossover operator"
  else if mutation.individual_class = [] ∨
      population.individualClass ∉ mutation.individual_class then
    .error "incompatible Individual class and Mutation operator"
  else .ok (population, crossover, mutation)

/-- **C9**: constructing the modular driver succeeds exactly when both
the crossover and the mutation strategy declare the population's
individual representation among their compatible set (an empty set can
never contain it, so it fails); an incompatible strategy makes the
constructor return an error before any generation can run. -/
theorem C9_strategy_compatibility
    (population : ModularPopulation) (crossover mutation : Strategy) :
    ((GAInit population crossover mutation).isOk = true ↔
      population.individualClass ∈ crossover.individual_class ∧
        population.individualClass ∈ mutation.individual_class) ∧
    ((GAInit population crossover mutation).isOk = true →
      GAInit population crossover mutation =
        .ok (population, crossover, mutation)) := by
  constructor
  · rw [GAInit]
    split
    · rename_i h
      constructor
      · intro hok
        simp [Except.isOk, Except.toBool] at hok
      · rintro ⟨hc, -⟩
        exfalso
        rcases h with h | h
        · rw [h] at hc
          exact absurd hc (List.not_mem_nil _)
        · exact h hc
    · rename_i h
      push_neg at h
      split
      · rename_i h2
        constructor
        · intro hok
          simp [Except.isOk, Except.toBool] at hok
        · rintro ⟨-, hm⟩
          exfalso
          rcases h2 with h2 | h2
          · rw [h2] at hm
            exact absurd hm (List.not_mem_nil _)
          · exact h2 hm
      · rename_i h2
        push_neg at h2
        constructor
        · intro hok
          exact ⟨h.2, h2.2⟩
        · intro hcm
          rfl
  · rw [GAInit]
    split
    · intro h
      simp [Except.isOk, Except.toBool] at h
    · split
      · intro h
        simp [Except.isOk, Except.toBool] at h
      · intro h
        rfl

/-- **C9 witness**: representation tag 0 with compatible strategies
constructs; a crossover strategy with an empty declared set fails. -/
theorem C9_strategy_compatibility_witness :
    (GAInit ⟨0⟩ ⟨[0]⟩ ⟨[0, 1]⟩).isOk = true ∧
    GAInit ⟨0⟩ ⟨[0]⟩ ⟨[0, 1]⟩ = .ok (⟨0⟩, ⟨[0]⟩, ⟨[0, 1]⟩) ∧
    (GAInit ⟨0⟩ ⟨[]⟩ ⟨[0]⟩).isOk = false := by
  refine ⟨?_, ?_, ?_⟩
  · exact (C9_strategy_compatibility ⟨0⟩ ⟨[0]⟩ ⟨[0, 1]⟩).1.mpr ⟨by simp, by simp⟩
  · exact (C9_strategy_compatibility ⟨0⟩ ⟨[0]⟩ ⟨[0, 1]⟩).2
      ((C9_strategy_compatibility ⟨0⟩ ⟨[0]⟩ ⟨[0, 1]⟩).1.mpr ⟨by simp, by simp⟩)
  · cases hv : (GAInit ⟨0⟩ ⟨[]⟩ ⟨[0]⟩).isOk with
    | false => rfl
    | true =>
      obtain ⟨h0, -⟩ := (C9_strategy_compatibility ⟨0⟩ ⟨[]⟩ ⟨[0]⟩).1.mp hv
      exact absurd h0 (List.not_mem_nil _)

/-- Modelled from the spec: `Population.best` of the modular variant
returns the individual at the first index of minimum evaluation
(`np.argmin` semantics, ties to the first minimal index); the modular
`Population` class itself is not under `src/`. -/
def bestIndividual {α : Type} [Inhabited α] (f : α → ℚ) : List α → α
  | [] => default
  | [x] => x
  | x :: y :: t =>
    if f x ≤ f (bestIndividual f (y :: t)) then x else bestIndividual f (y :: t)

theorem bestIndividual_mem {α : Type} [Inhabited α] (f : α → ℚ) :
    ∀ pop : List α, pop ≠ [] → bestIndividual f pop ∈ pop
  | [x], _ => by simp [bestIndividual]
  | x :: y :: t, _ => by
    rw [bestIndividual]
    split
    · simp
    · exact List.mem_cons_of_mem _ (bestIndividual_mem f (y :: t) (by simp))

theorem bestIndividual_le {α : Type} [Inhabited α] (f : α → ℚ) :
    ∀ pop : List α, ∀ y ∈ pop, f (bestIndividual f pop) ≤ f y
  | [x], y, hy => by
    simp only [List.mem_cons, List.not_mem_nil, or_false] at hy
    subst hy
    simp [bestIndividual]
  | x :: z :: t, y, hy => by
    rw [bestIndividual]
    rcases List.mem_cons.mp hy with rfl | hy2
    · split
      · exact le_refl _
      · rename_i hnle
        exact le_of_lt (lt_of_le_of_lt
          (bestIndividual_le f (z :: t) _
            (bestIndividual_mem f (z :: t) (by simp))) (by linarith [not_le.mp hnle]))
    · split
      · rename_i hle
        exact le_trans hle (bestIndividual_le f (z :: t) y hy2)
      · exact bestIndividual_le f (z :: t) y hy2

/-- One generation of `GA.run` with elitism (`src/GA/GAProcess.py`):
snapshot (copy) the best individual of the current population, apply the
(arbitrary, fully destructive) selection, crossover and mutation
strategies in sequence, then overwrite the slot at the uniformly drawn
index `pos` with the snapshot. -/
def elitistGeneration {α : Type} [Inhabited α] (f : α → ℚ) (ops : List α → List α)
    (pos : ℕ) (pop : List α) : List α :=
  (ops pop).set pos (bestIndividual f pop)

/-- The elitist `GA.run` loop: generation `n` applies
`elitistGeneration` with that generation's strategy applications `ops n`
and slot draw `poss n`. -/
def elitistRun {α : Type} [Inhabited α] (f : α → ℚ) (ops : ℕ → List α → List α)
    (poss : ℕ → ℕ) (pop : List α) : ℕ → List α
  | 0 => pop
  | n + 1 => elitistGeneration f (ops n) (poss n) (elitistRun f ops poss pop n)

theorem mem_set_self {α : Type} {l : List α} {p : ℕ} {a : α} (h : p < l.length) :
    a ∈ l.set p a := by
  have h2 : p < (l.set p a).length := by rw [List.length_set]; exact h
  have h3 := List.getElem_set_self (l := l) (i := p) (a := a) h2
  have h4 := List.getElem_mem h2
  rwa [h3] at h4

/-- **C6**: with elitism enabled each generation snapshots the current
best individual and, after the (arbitrary, size-preserving) selection,
crossover and mutation strategies have rebuilt the population,
overwrites the randomly drawn slot with the snapshot; consequently the
minimum evaluation at the snapshot points is non-increasing over the
whole run — the best-ever individual is never lost between
generations. -/
theorem C6_elitism_never_loses_best {α : Type} [Inhabited α] (f : α → ℚ)
    (ops : ℕ → List α → List α) (poss : ℕ → ℕ) (pop : List α)
    (hops : ∀ n l, (ops n l).length = l.length)
    (hpos : ∀ n, poss n < pop.length) :
    ∀ i j, i ≤ j →
      f (bestIndividual f (elitistRun f ops poss pop j)) ≤
        f (bestIndividual f (elitistRun f ops poss pop i)) := by
  have hlen : ∀ n, (elitistRun f ops poss pop n).length = pop.length := by
    intro n
    induction n with
    | zero => rfl
    | succ n ih =>
      show ((ops n (elitistRun f ops poss pop n)).set (poss n) _).length = _
      rw [List.length_set, hops, ih]
  have hstep : ∀ n,
      f (bestIndividual f (elitistRun f ops poss pop (n + 1))) ≤
        f (bestIndividual f (elitistRun f ops poss pop n)) := by
    intro n
    have hmem : bestIndividual f (elitistRun f ops poss pop n) ∈
        elitistRun f ops poss pop (n + 1) := by
      show _ ∈ (ops n (elitistRun f ops poss pop n)).set (poss n) _
      exact mem_set_self (by rw [hops, hlen]; exact hpos n)
    exact bestIndividual_le f _ _ hmem
  intro i j hij
  induction j, hij using Nat.le_induction with
  | base => exact le_refl _
  | succ j hij ih => exact le_trans (hstep j) ih

/-- **C6 witness**: a three-individual run over `ℚ` chromosomes with the
destructive operator "shift every value up by 1" and elitist slot 0. -/
theorem C6_elitism_never_loses_best_witness :
    bestIndividual (id : ℚ → ℚ) (elitistRun id (fun _ l => l.map (fun x => x + 1))
        (fun _ => 0) [3, 1, 2] 2) ≤
      bestIndividual (id : ℚ → ℚ) (elitistRun id (fun _ l => l.map (fun x => x + 1))
        (fun _ => 0) [3, 1, 2] 0) :=
  C6_elitism_never_loses_best (id : ℚ → ℚ) (fun _ l => l.map (fun x => x + 1))
    (fun _ => 0) [3, 1, 2] (fun n l => by rw [List.length_map])
    (fun n => by norm_num) 0 2 (by norm_num)

/-- The adaptive mutation magnitude computed by the monolithic
`GA.solve` loop of `src/GA.py`:
`rate = 1.0 - np.random.rand() ** (1.0 - current_gen / max_generation)`,
with `g` the current generation, `G` the generation budget and `U` the
fresh uniform draw. -/
noncomputable def mutationMagnitude (g G : ℕ) (U : ℝ) : ℝ :=
  1 - U ^ ((1 : ℝ) - (g : ℝ) / (G : ℝ))

/-- **C5** (amended: the magnitude trends toward 0, not toward 1, as `g`
approaches `G` — the exponent `1 - g/G` shrinks to 0, so `U^(1-g/G)`
rises toward 1 and the magnitude falls): the monolithic driver's
mutation magnitude for generation `g` of `G` equals `1 - U^(1-g/G)`
where `U` is a fresh uniform `[0,1)` draw; for any fixed `U ∈ (0,1)` it
is non-increasing in `g`, and it equals exactly 0 at `g = G` (gentler,
not more aggressive, creep late in the run). -/
theorem C5_mutation_magnitude (G : ℕ) (U : ℝ) (hG : 0 < G) (hU0 : 0 < U)
    (hU1 : U < 1) :
    (∀ g : ℕ, mutationMagnitude g G U =
      1 - U ^ ((1 : ℝ) - (g : ℝ) / (G : ℝ))) ∧
    (∀ g1 g2 : ℕ, g1 ≤ g2 →
      mutationMagnitude g2 G U ≤ mutationMagnitude g1 G U) ∧
    mutationMagnitude G G U = 0 := by
  have hGpos : (0 : ℝ) < (G : ℝ) := by exact_mod_cast hG
  refine ⟨fun g => rfl, ?_, ?_⟩
  · intro g1 g2 h12
    rw [mutationMagnitude, mutationMagnitude]
    have hc : (g1 : ℝ) ≤ (g2 : ℝ) := by exact_mod_cast h12
    have hdiv : (g1 : ℝ) / (G : ℝ) ≤ (g2 : ℝ) / (G : ℝ) := by
      apply div_le_div_of_nonneg_right hc (le_of_lt hGpos)
    have hexp : (1 : ℝ) - (g2 : ℝ) / (G : ℝ) ≤ (1 : ℝ) - (g1 : ℝ) / (G : ℝ) := by
      linarith
    have hpow := Real.rpow_le_rpow_of_exponent_ge hU0 (le_of_lt hU1) hexp
    linarith
  · rw [mutationMagnitude, div_self (ne_of_gt hGpos), sub_self, Real.rpow_zero,
      sub_self]

/-- **C5 counterexample**: with the fresh draw `U = 1/4` and budget
`G = 2`, the magnitude is `1/2` at generation 1 but exactly `0` at the
final generation 2 — it moves away from 1 as `g` approaches `G`,
refuting "trends toward 1 (more aggressive creep)". -/
theorem C5_counterexample :
    mutationMagnitude 1 2 (1/4) = 1/2 ∧ mutationMagnitude 2 2 (1/4) = 0 ∧
    mutationMagnitude 2 2 (1/4) < mutationMagnitude 1 2 (1/4) := by
  have h1 : mutationMagnitude 1 2 (1/4) = 1/2 := by
    rw [mutationMagnitude]
    have hexp : (1 : ℝ) - ((1 : ℕ) : ℝ) / ((2 : ℕ) : ℝ) = 1/2 := by
      push_cast
      norm_num
    rw [hexp]
    have h14 : ((1 : ℝ)/4) = ((1 : ℝ)/2) ^ (2 : ℕ) := by norm_num
    rw [h14, ← Real.rpow_natCast ((1 : ℝ)/2) 2, ← Real.rpow_mul (by norm_num)]
    rw [show ((2 : ℕ) : ℝ) * ((1 : ℝ)/2) = 1 by push_cast; norm_num,
      Real.rpow_one]
    norm_num
  have h2 : mutationMagnitude 2 2 (1/4) = 0 := by
    rw [mutationMagnitude]
    rw [show ((2 : ℕ) : ℝ) / ((2 : ℕ) : ℝ) = 1 by norm_num]
    rw [sub_self, Real.rpow_zero, sub_self]
  exact ⟨h1, h2, by rw [h1, h2]; norm_num⟩

/-- **C5 witness**: the amended statement at `G = 2`, `U = 1/2`. -/
theorem C5_mutation_magnitude_witness :
    mutationMagnitude 2 2 (1/2) = 0 ∧
    mutationMagnitude 2 2 (1/2) ≤ mutationMagnitude 1 2 (1/2) :=
  ⟨(C5_mutation_magnitude 2 (1/2) (by norm_num) (by norm_num) (by norm_num)).2.2,
    (C5_mutation_magnitude 2 (1/2) (by norm_num) (by norm_num)
      (by norm_num)).2.1 1 2 (by norm_num)⟩
